import Mathlib

/-! Merkle tree (`MerkleTreeI.go`): embedding and checked properties.

The Go file is embedded shallowly.  A pointer `*MNode` is either `nil` or
refers to a node; a call either returns a value or stops with a run-time
error (`Except RuntimeError`).  A recursion that the source does not bound
takes a step bound, and `none` means the bound ran out before the call
returned.

The hash primitive `sha256.Sum256` of the Go standard library is a parameter
`Sum256` of every definition that hashes.
-/

namespace MerkleTree

/-! ## Data model -/

/-- Run-time error that stops a Go call. -/
inductive RuntimeError where
  | nilDereference : RuntimeError
  deriving DecidableEq

/-- Value of type `*MNode`: the nil pointer, or the address of a node whose
four fields are `isLeaf`, `hash`, `left`, `right`. -/
inductive MNodePtr where
  | nil : MNodePtr
  | addr (isLeaf : Bool) (hash : String) (left right : MNodePtr) : MNodePtr
  deriving DecidableEq

/-- Struct `MNode` (source lines 143-149). -/
structure MNode where
  isLeaf : Bool
  hash : String
  left : MNodePtr
  right : MNodePtr
  deriving DecidableEq

/-- Address of a node value. -/
def MNode.ptr (node : MNode) : MNodePtr :=
  MNodePtr.addr node.isLeaf node.hash node.left node.right

/-- Dereference `*p`; on the nil pointer the Go run time panics. -/
def MNodePtr.load : MNodePtr → Except RuntimeError MNode
  | MNodePtr.nil => Except.error RuntimeError.nilDereference
  | MNodePtr.addr isLeaf hash left right => Except.ok ⟨isLeaf, hash, left, right⟩

/-- Value of interface type `Hashable`: the nil interface value, or a value
that provides its digest. -/
abbrev Hashable := Option String

/-- Array `[32]byte` returned by `sha256.Sum256`. -/
structure Sum256Out where
  bytes : List (Fin 256)
  size_eq : bytes.length = 32

/-! ## Hashing -/

/-- Conversion `[]byte(text)`: the UTF-8 bytes of a Go string. -/
def bytesOf (text : String) : List (Fin 256) :=
  text.toUTF8.data.toList.map (fun b => b.val)

/-- One lowercase hexadecimal digit, for a value below 16. -/
def hexDigit (n : Nat) : Char :=
  if n < 10 then Char.ofNat (48 + n) else Char.ofNat (87 + n)

/-- Verb `%x` on one byte: two lowercase hexadecimal digits. -/
def hexByte (b : Fin 256) : List Char :=
  [hexDigit (b.val / 16), hexDigit (b.val % 16)]

/-- Call `fmt.Sprintf("%x", sum)` on a byte array. -/
def sprintfHex (sum : List (Fin 256)) : String :=
  String.mk (sum.flatMap hexByte)

/-- Function `Hash` (source lines 151-155). -/
def Hash (Sum256 : List (Fin 256) → Sum256Out) (text : String) : String :=
  let sum := Sum256 (bytesOf text)
  sprintfHex sum.bytes

/-- Function `MHash` (source lines 157-160). -/
def MHash (Sum256 : List (Fin 256) → Sum256Out) (h1 h2 : String) : String :=
  Hash Sum256 (h1 ++ h2)

/-! ## Node digest -/

/-- Function `GetHash` (source lines 28-38).  The argument is a pointer; the
function stores the digest in `node.hash` and returns it, so the result is
the node after the call together with the returned string. -/
def GetHash (Sum256 : List (Fin 256) → Sum256Out) (p : MNodePtr) :
    Except RuntimeError (MNode × String) := do
  let node ← p.load
  if node.left ≠ MNodePtr.nil ∧ node.right ≠ MNodePtr.nil then
    let l ← node.left.load
    let r ← node.right.load
    let node := { node with hash := Hash Sum256 (l.hash ++ r.hash) }
    return (node, node.hash)
  else if node.left ≠ MNodePtr.nil ∧ node.right = MNodePtr.nil then
    let l ← node.left.load
    let node := { node with hash := l.hash }
    return (node, node.hash)
  else
    return (node, node.hash)

/-! ## Tree construction -/

/-- Argument of a call of `ComputeTree`.  The declared parameter is a slice
`hashes []Hashable`; the self-call on source line 74 passes the node `list`
instead. -/
inductive ComputeTreeArg where
  | hashes (hs : List Hashable) : ComputeTreeArg
  | node (list : MNode) : ComputeTreeArg

/-- Function `ComputeTree` (source lines 62-75).  The body builds the node
`list`, runs a loop that only prints the non-nil elements (the append on
line 70 is commented out, so the loop changes no variable), and returns the
result of calling itself on `list`.  The first argument bounds the number of
nested calls; `none` means that the bound ran out before the outermost call
returned. -/
def ComputeTree : Nat → ComputeTreeArg → Option (Except RuntimeError MNode)
  | 0, _ => none
  | fuel + 1, _ =>
    let list : MNode := ⟨false, "", MNodePtr.nil, MNodePtr.nil⟩
    ComputeTree fuel (ComputeTreeArg.node list)

/-- Method `GetRoot` (source lines 77-80). -/
def MNode.GetRoot (node : MNode) : String :=
  node.hash

/-! ## Height and level listing -/

/-- Loop of `GetHeight` started at the node `*p`: the number of iterations
`node = *node.left` made while `!node.isLeaf && node.left != nil`. -/
def MNodePtr.heightLoop : MNodePtr → Nat
  | MNodePtr.nil => 0
  | MNodePtr.addr isLeaf _ left _ =>
    if !isLeaf && left ≠ MNodePtr.nil then left.heightLoop + 1 else 0

/-- Method `GetHeight` (source lines 118-123). -/
def MNode.GetHeight (node : MNode) : Nat :=
  node.ptr.heightLoop

/-- Method `getNodesByLevel` (source lines 125-135) called through a
pointer: the value receiver is loaded first, which panics on nil. -/
def MNodePtr.getNodesByLevel : MNodePtr → Int → Except RuntimeError (List String)
  | MNodePtr.nil, _ => Except.error RuntimeError.nilDereference
  | MNodePtr.addr _ hash left right, level =>
    if level ≤ 0 then
      Except.ok [hash]
    else if right ≠ MNodePtr.nil then
      match left.getNodesByLevel (level - 1) with
      | Except.error e => Except.error e
      | Except.ok ls =>
        match right.getNodesByLevel (level - 1) with
        | Except.error e => Except.error e
        | Except.ok rs => Except.ok (ls ++ rs)
    else
      left.getNodesByLevel (level - 1)

/-- Method `getNodesByLevel` (source lines 125-135) on a node value. -/
def MNode.getNodesByLevel (node : MNode) (level : Int) : Except RuntimeError (List String) :=
  node.ptr.getNodesByLevel level

/-- Function `GetPathByIndex` (source lines 108-116).  The source reads an
undeclared variable `node`: it is the tree the method of the interface
`MerkleTreeI` is called on, here the first argument.  The result `none` is the
nil pointer; otherwise the result is the digest list that the source returns
in `return node.getNodesByLevel(idx), nil`. -/
def GetPathByIndex (node : MNode) (idx : Int) : Except RuntimeError (Option (List String)) :=
  let height := node.GetHeight
  if idx > (height : Int) then
    Except.ok none
  else
    match node.getNodesByLevel idx with
    | Except.error e => Except.error e
    | Except.ok nodes => Except.ok (some nodes)

/-! ## Concrete inputs -/

/-- Leaf node holding the digest `h`. -/
def leafNode (h : String) : MNodePtr :=
  MNodePtr.addr true h MNodePtr.nil MNodePtr.nil

/-- Internal node with two children and stored digest `h`. -/
def pairNode (h : String) (l r : MNodePtr) : MNodePtr :=
  MNodePtr.addr false h l r

/-- Tree over three leaf digests: the root has the internal node over `h0`
and `h1` on the left and the promoted leaf `h2` on the right; `h01` and `hr`
are the digests stored in the internal node and in the root. -/
def threeLeafTree (h0 h1 h2 h01 hr : String) : MNode :=
  ⟨false, hr, pairNode h01 (leafNode h0) (leafNode h1), leafNode h2⟩

/-- Perfect tree over four leaf digests, with the stored digests of the two
internal nodes and of the root. -/
def fourLeafTree (h0 h1 h2 h3 h01 h23 hr : String) : MNode :=
  ⟨false, hr, pairNode h01 (leafNode h0) (leafNode h1), pairNode h23 (leafNode h2) (leafNode h3)⟩

/-- Tree with one leaf below an internal node that has a left child only. -/
def singleChildTree (h : String) : MNode :=
  ⟨false, h, leafNode h, MNodePtr.nil⟩

/-- Tree over three leaf digests in which the promoted leaf `h2` is wrapped
in an internal node that has a left child only and repeats its digest. -/
def wrappedThreeLeafTree (h0 h1 h2 h01 hr : String) : MNode :=
  ⟨false, hr, pairNode h01 (leafNode h0) (leafNode h1),
    MNodePtr.addr false h2 (leafNode h2) MNodePtr.nil⟩

/-- Hash primitive that separates the empty input from every other input. -/
def emptinessSum256 (input : List (Fin 256)) : Sum256Out :=
  ⟨List.replicate 32 (if input = [] then 0 else 1), by simp⟩

/-! ## Properties of trees named by the specification -/

/-- Node invariant of the specification: a leaf has no children, an internal
node has a left child and optionally a right child.  The nil pointer is not a
tree. -/
def nodeInvariant : MNodePtr → Bool
  | MNodePtr.nil => false
  | MNodePtr.addr isLeaf _ left right =>
    if isLeaf then
      decide (left = MNodePtr.nil) && decide (right = MNodePtr.nil)
    else
      nodeInvariant left && (decide (right = MNodePtr.nil) || nodeInvariant right)

/-- Stronger invariant: a leaf has no children and every internal node has
both children. -/
def twoChildInvariant : MNodePtr → Bool
  | MNodePtr.nil => false
  | MNodePtr.addr isLeaf _ left right =>
    if isLeaf then
      decide (left = MNodePtr.nil) && decide (right = MNodePtr.nil)
    else
      twoChildInvariant left && twoChildInvariant right

/-- Number of leaves of the tree below a pointer. -/
def leafCount : MNodePtr → Nat
  | MNodePtr.nil => 0
  | MNodePtr.addr isLeaf _ left right =>
    if isLeaf then 1 else leafCount left + leafCount right

/-- Depth of the shallowest leaf of the tree below a pointer. -/
def minLeafDepth : MNodePtr → Nat
  | MNodePtr.nil => 0
  | MNodePtr.addr isLeaf _ left right =>
    if isLeaf then 0
    else if right ≠ MNodePtr.nil then min (minLeafDepth left) (minLeafDepth right) + 1
    else minLeafDepth left + 1

/-- Run named by the proof-soundness property: build the tree over the leaf
digests `L`, ask for the path of index `i`, and hand the leaf digest, the
path and the root digest to `VerifyPath`.  `VerifyPath` has no body in the
source (lines 102-106 are comments), so it is an argument.  The result is
`none` when the step bound runs out before `ComputeTree` returns. -/
def soundnessRun (VerifyPath : String → Option (List String) → String → Bool)
    (fuel : Nat) (L : List String) (i : Nat) : Option (Except RuntimeError Bool) :=
  match ComputeTree fuel (ComputeTreeArg.hashes (L.map some)) with
  | none => none
  | some (Except.error e) => some (Except.error e)
  | some (Except.ok tree) =>
    match GetPathByIndex tree (i : Int) with
    | Except.error e => some (Except.error e)
    | Except.ok path => some (Except.ok (VerifyPath (L.getD i "") path tree.GetRoot))

/-! ## Legacy membership check -/

/-- Loop of `GetPath` (source lines 93-95) started at the node `*p` with
`budget = height - i` iterations left: the number of iterations
`node = *node.right` made while `i < height && node.right != nil`. -/
def MNodePtr.rightLoop : Nat → MNodePtr → Nat
  | 0, _ => 0
  | _ + 1, MNodePtr.nil => 0
  | budget + 1, MNodePtr.addr _ _ _ right =>
    if right ≠ MNodePtr.nil then right.rightLoop budget + 1 else 0

/-- Function `GetPath` (source lines 88-99). -/
def GetPath (node : MNode) : Bool :=
  let height := node.GetHeight
  let i := node.ptr.rightLoop height
  decide (height = i)

/-! ## Tree shapes named by the claims -/

/-- Stored digest of the node a pointer refers to (the empty string for the
nil pointer, which has none). -/
def MNodePtr.hashOf : MNodePtr → String
  | MNodePtr.nil => ""
  | MNodePtr.addr _ hash _ _ => hash

/-- Modelled from the spec: one round of the level-by-level pairing of
section 4.2, which `ComputeTree` in the source does not perform.  Adjacent
nodes are paired left to right under a new internal node whose digest is
`MHash` of the two stored digests, and an unpaired last node is promoted as
it is. -/
def pairLevel (Sum256 : List (Fin 256) → Sum256Out) : List MNodePtr → List MNodePtr
  | a :: b :: rest =>
    pairNode (MHash Sum256 a.hashOf b.hashOf) a b :: pairLevel Sum256 rest
  | [a] => [a]
  | [] => []

/-- Modelled from the spec: the pairing rounds of section 4.2 repeated until
one node remains, which is the root (`ComputeTree` in the source has no such
loop).  At most `rounds` rounds are made, and the nil pointer is the result
when the level is empty or more rounds would be needed. -/
def pairRounds (Sum256 : List (Fin 256) → Sum256Out) : Nat → List MNodePtr → MNodePtr
  | _, [] => MNodePtr.nil
  | _, [a] => a
  | 0, _ :: _ :: _ => MNodePtr.nil
  | rounds + 1, a :: b :: rest => pairRounds Sum256 rounds (pairLevel Sum256 (a :: b :: rest))

/-- Modelled from the spec: the tree that results from the level-by-level
pairing of the leaf digests (section 4.2), which `ComputeTree` in the source
does not build.  As many rounds as there are leaves are allowed, which is
enough for the root to be reached. -/
def pairingTree (Sum256 : List (Fin 256) → Sum256Out) (leaves : List String) : MNodePtr :=
  pairRounds Sum256 leaves.length (leaves.map leafNode)

/-- Digests of the leaves of a tree, from left to right. -/
def leafDigests : MNodePtr → List String
  | MNodePtr.nil => []
  | MNodePtr.addr isLeaf hash left right =>
    if isLeaf then [hash] else leafDigests left ++ leafDigests right

/-- Digests of all nodes at depth `k` of a tree, from left to right. -/
def digestsAtDepth : Nat → MNodePtr → List String
  | _, MNodePtr.nil => []
  | 0, MNodePtr.addr _ hash _ _ => [hash]
  | k + 1, MNodePtr.addr _ _ left right => digestsAtDepth k left ++ digestsAtDepth k right

/-- Every leaf below the pointer lies at depth `d` exactly. -/
def leavesAtDepth : Nat → MNodePtr → Bool
  | _, MNodePtr.nil => true
  | 0, MNodePtr.addr isLeaf _ _ _ => isLeaf
  | d + 1, MNodePtr.addr isLeaf _ left right =>
    !isLeaf && leavesAtDepth d left && leavesAtDepth d right

/-- Perfect binary tree of depth `d`: a childless leaf at depth zero, and an
internal node over two perfect trees of depth `d` at depth `d + 1`. -/
def perfectTree : Nat → MNodePtr → Bool
  | _, MNodePtr.nil => false
  | 0, MNodePtr.addr isLeaf _ left right =>
    isLeaf && decide (left = MNodePtr.nil) && decide (right = MNodePtr.nil)
  | d + 1, MNodePtr.addr isLeaf _ left right =>
    !isLeaf && perfectTree d left && perfectTree d right

/-- Right-child links can be followed `k` times starting from the node. -/
def canFollowRight : Nat → MNodePtr → Bool
  | 0, _ => true
  | _ + 1, MNodePtr.nil => false
  | k + 1, MNodePtr.addr _ _ _ right => decide (right ≠ MNodePtr.nil) && canFollowRight k right

/-- Lowercase hexadecimal digit: `0`-`9` or `a`-`f`. -/
def isLowerHex (c : Char) : Bool :=
  ('0' ≤ c && c ≤ '9') || ('a' ≤ c && c ≤ 'f')

/-- Tree whose right subtree is deeper than its left one: a leaf on the left
of the root, an internal node over two leaves on the right. -/
def rightDeepTree (h0 h1 h2 h12 hr : String) : MNode :=
  ⟨false, hr, leafNode h0, pairNode h12 (leafNode h1) (leafNode h2)⟩

/-! ## Shared lemmas -/

theorem ComputeTree_eq_none (fuel : Nat) : ∀ arg, ComputeTree fuel arg = none := by
  induction fuel with
  | zero => intro arg; rfl
  | succ n ih => intro arg; simp only [ComputeTree]; exact ih _

theorem heightLoop_lt_leafCount (p : MNodePtr) (h : twoChildInvariant p = true) :
    p.heightLoop + 1 ≤ leafCount p := by
  induction p with
  | nil => simp [twoChildInvariant] at h
  | addr isLeaf hash left right ihl ihr =>
    cases isLeaf with
    | true => simp [MNodePtr.heightLoop, leafCount]
    | false =>
      simp only [twoChildInvariant, Bool.false_eq_true, if_false, Bool.and_eq_true] at h
      have hl := ihl h.1
      have hr := ihr h.2
      simp only [MNodePtr.heightLoop, leafCount, Bool.false_eq_true, if_false]
      split <;> omega

theorem nodeInvariant_ne_nil (p : MNodePtr) (h : nodeInvariant p = true) :
    p ≠ MNodePtr.nil := by
  intro hp
  subst hp
  simp [nodeInvariant] at h

theorem minLeafDepth_le_heightLoop (p : MNodePtr) (h : nodeInvariant p = true) :
    minLeafDepth p ≤ p.heightLoop := by
  induction p with
  | nil => simp [minLeafDepth]
  | addr isLeaf hash left right ihl _ =>
    cases isLeaf with
    | true => simp [minLeafDepth]
    | false =>
      simp only [nodeInvariant, Bool.false_eq_true, if_false, Bool.and_eq_true] at h
      have hl := ihl h.1
      have hne := nodeInvariant_ne_nil left h.1
      simp only [minLeafDepth, MNodePtr.heightLoop, Bool.false_eq_true, if_false]
      simp only [Bool.not_false, Bool.true_and, decide_eq_true_eq, hne, ne_eq,
        not_false_eq_true, if_true]
      split <;> omega

theorem getNodesByLevel_ok_of_le_minLeafDepth (p : MNodePtr) (h : nodeInvariant p = true) :
    ∀ level : Int, level ≤ (minLeafDepth p : Int) →
      ∃ nodes, p.getNodesByLevel level = Except.ok nodes := by
  induction p with
  | nil => simp [nodeInvariant] at h
  | addr isLeaf hash left right ihl ihr =>
    intro level hlevel
    by_cases h0 : level ≤ 0
    · exact ⟨[hash], by simp [MNodePtr.getNodesByLevel, h0]⟩
    · cases isLeaf with
      | true => simp [minLeafDepth] at hlevel; omega
      | false =>
        simp only [nodeInvariant, Bool.false_eq_true, if_false, Bool.and_eq_true,
          Bool.or_eq_true, decide_eq_true_eq] at h
        simp only [minLeafDepth, Bool.false_eq_true, if_false] at hlevel
        by_cases hr : right = MNodePtr.nil
        · simp only [hr, ne_eq, not_true_eq_false, if_false] at hlevel
          obtain ⟨ls, hls⟩ := ihl h.1 (level - 1) (by omega)
          exact ⟨ls, by simp [MNodePtr.getNodesByLevel, h0, hr, hls]⟩
        · simp only [ne_eq, hr, not_false_eq_true, if_true] at hlevel
          have hrinv : nodeInvariant right = true := by
            rcases h.2 with h2 | h2
            · exact absurd h2 hr
            · exact h2
          obtain ⟨ls, hls⟩ := ihl h.1 (level - 1) (by omega)
          obtain ⟨rs, hrs⟩ := ihr hrinv (level - 1) (by omega)
          exact ⟨ls ++ rs, by simp [MNodePtr.getNodesByLevel, h0, hr, hls, hrs]⟩

theorem bytesOf_ne_nil (s : String) (h : s ≠ "") : bytesOf s ≠ [] := by
  obtain ⟨cs⟩ := s
  cases cs with
  | nil => exact absurd rfl h
  | cons c cs =>
    intro hb
    have hlen := congrArg List.length hb
    have hpos := Char.utf8Size_pos c
    simp [bytesOf, String.toUTF8, String.length_utf8EncodeChar] at hlen
    omega

theorem pairLevel_length (Sum256 : List (Fin 256) → Sum256Out) :
    ∀ (n : Nat) (level : List MNodePtr), level.length ≤ n →
      (pairLevel Sum256 level).length = (level.length + 1) / 2 := by
  intro n
  induction n using Nat.strong_induction_on with
  | _ n ih =>
    intro level hn
    match level with
    | [] => rfl
    | [a] => simp [pairLevel]
    | a :: b :: rest =>
      have hrest := ih (n - 2) (by simp at hn; omega) rest (by simp at hn; omega)
      simp only [pairLevel, List.length_cons, hrest]
      omega

theorem heightLoop_pairNode (h : String) (l r : MNodePtr) (hl : l ≠ MNodePtr.nil) :
    (pairNode h l r).heightLoop = l.heightLoop + 1 := by
  simp [pairNode, MNodePtr.heightLoop, hl]

theorem pairRounds_height (Sum256 : List (Fin 256) → Sum256Out) :
    ∀ (rounds : Nat) (a : MNodePtr) (rest : List MNodePtr),
      a ≠ MNodePtr.nil → (a :: rest).length ≤ rounds + 1 →
      pairRounds Sum256 rounds (a :: rest) ≠ MNodePtr.nil ∧
      (pairRounds Sum256 rounds (a :: rest)).heightLoop
        = a.heightLoop + Nat.clog 2 (a :: rest).length := by
  intro rounds
  induction rounds with
  | zero =>
    intro a rest ha hlen
    match rest with
    | [] => simp [pairRounds, ha]
    | b :: rest => simp at hlen
  | succ n ih =>
    intro a rest ha hlen
    match rest with
    | [] => simp [pairRounds, ha]
    | b :: rest =>
      have hpl := pairLevel_length Sum256 rest.length rest (le_refl _)
      have hne : pairNode (MHash Sum256 a.hashOf b.hashOf) a b ≠ MNodePtr.nil := by
        simp [pairNode]
      have hstep := ih (pairNode (MHash Sum256 a.hashOf b.hashOf) a b) (pairLevel Sum256 rest)
        hne (by simp only [List.length_cons] at hlen ⊢; omega)
      have hclog : Nat.clog 2 (a :: b :: rest).length
          = Nat.clog 2 ((pairNode (MHash Sum256 a.hashOf b.hashOf) a b)
              :: pairLevel Sum256 rest).length + 1 := by
        rw [Nat.clog_of_two_le (by decide) (by simp)]
        congr 2
        simp only [List.length_cons, hpl]
        omega
      simp only [pairRounds, pairLevel]
      refine ⟨hstep.1, ?_⟩
      rw [hstep.2, heightLoop_pairNode _ _ _ ha, hclog]
      omega

theorem load_of_ne_nil (p : MNodePtr) (h : p ≠ MNodePtr.nil) :
    ∃ root, p.load = Except.ok root ∧ root.ptr = p := by
  cases p with
  | nil => exact absurd rfl h
  | addr isLeaf hash left right => exact ⟨⟨isLeaf, hash, left, right⟩, rfl, rfl⟩

theorem leavesAtDepth_level_listing (p : MNodePtr) :
    ∀ d : Nat, nodeInvariant p = true → leavesAtDepth d p = true →
      p.heightLoop = d ∧ p.getNodesByLevel (d : Int) = Except.ok (leafDigests p) ∧
      (leafDigests p).length = leafCount p := by
  induction p with
  | nil => intro d h; simp [nodeInvariant] at h
  | addr isLeaf hash left right ihl ihr =>
    intro d hinv hd
    cases d with
    | zero =>
      simp only [leavesAtDepth] at hd
      subst hd
      simp [MNodePtr.heightLoop, MNodePtr.getNodesByLevel, leafDigests, leafCount]
    | succ d =>
      simp only [leavesAtDepth, Bool.and_eq_true, Bool.not_eq_true'] at hd
      obtain ⟨⟨hleaf, hdl⟩, hdr⟩ := hd
      subst hleaf
      simp only [nodeInvariant, Bool.false_eq_true, if_false, Bool.and_eq_true,
        Bool.or_eq_true, decide_eq_true_eq] at hinv
      have hne := nodeInvariant_ne_nil left hinv.1
      obtain ⟨hl1, hl2, hl3⟩ := ihl d hinv.1 hdl
      have hpos : ¬ ((d + 1 : Nat) : Int) ≤ 0 := by omega
      have hsub : ((d + 1 : Nat) : Int) - 1 = (d : Int) := by omega
      by_cases hr : right = MNodePtr.nil
      · subst hr
        refine ⟨?_, ?_, ?_⟩
        · simp [MNodePtr.heightLoop, hne, hl1]
        · simp only [MNodePtr.getNodesByLevel, hpos, if_false, ne_eq, not_true_eq_false,
            hsub, hl2, leafDigests, Bool.false_eq_true, List.append_nil]
        · simp [leafDigests, leafCount, hl3]
      · have hrinv : nodeInvariant right = true := by
          rcases hinv.2 with h2 | h2
          · exact absurd h2 hr
          · exact h2
        obtain ⟨_, hr2, hr3⟩ := ihr d hrinv hdr
        refine ⟨?_, ?_, ?_⟩
        · simp [MNodePtr.heightLoop, hne, hl1]
        · simp only [MNodePtr.getNodesByLevel, hpos, if_false, ne_eq, hr, not_false_eq_true,
            if_true, hsub, hl2, hr2, leafDigests, Bool.false_eq_true]
        · simp [leafDigests, leafCount, hl3, hr3]

theorem hexDigit_lowerHex : ∀ n, n < 16 → isLowerHex (hexDigit n) = true := by
  decide

theorem sprintfHex_length (bs : List (Fin 256)) : (sprintfHex bs).length = 2 * bs.length := by
  unfold sprintfHex
  rw [String.length_mk]
  induction bs with
  | nil => rfl
  | cons b bs ih =>
    simp only [List.flatMap_cons, List.length_append, ih, List.length_cons]
    simp only [hexByte, List.length_cons, List.length_nil]
    omega

theorem sprintfHex_lowerHex (bs : List (Fin 256)) :
    ∀ c ∈ (sprintfHex bs).data, isLowerHex c = true := by
  intro c hc
  simp only [sprintfHex, List.mem_flatMap] at hc
  obtain ⟨b, _, hb⟩ := hc
  simp only [hexByte, List.mem_cons, List.mem_singleton, List.not_mem_nil, or_false] at hb
  have hlt := b.isLt
  rcases hb with hb | hb
  · subst hb
    exact hexDigit_lowerHex _ (by omega)
  · subst hb
    exact hexDigit_lowerHex _ (by omega)

theorem rightLoop_eq_iff : ∀ (k : Nat) (p : MNodePtr),
    p.rightLoop k = k ↔ canFollowRight k p = true := by
  intro k
  induction k with
  | zero => intro p; simp [MNodePtr.rightLoop, canFollowRight]
  | succ k ih =>
    intro p
    cases p with
    | nil => simp [MNodePtr.rightLoop, canFollowRight]
    | addr isLeaf hash left right =>
      by_cases hr : right = MNodePtr.nil
      · simp [MNodePtr.rightLoop, canFollowRight, hr]
      · simp [MNodePtr.rightLoop, canFollowRight, hr, ih right]

theorem GetPath_iff (node : MNode) :
    GetPath node = true ↔ canFollowRight node.GetHeight node.ptr = true := by
  rw [← rightLoop_eq_iff]
  simp only [GetPath, decide_eq_true_eq]
  exact eq_comm

theorem perfectTree_ne_nil (d : Nat) (p : MNodePtr) (h : perfectTree d p = true) :
    p ≠ MNodePtr.nil := by
  intro hp
  subst hp
  cases d <;> simp [perfectTree] at h

theorem perfectTree_spines : ∀ (d : Nat) (p : MNodePtr), perfectTree d p = true →
    p.heightLoop = d ∧ canFollowRight d p = true := by
  intro d
  induction d with
  | zero =>
    intro p h
    cases p with
    | nil => simp [perfectTree] at h
    | addr isLeaf hash left right =>
      simp only [perfectTree, Bool.and_eq_true, decide_eq_true_eq] at h
      simp [MNodePtr.heightLoop, canFollowRight, h.1.1]
  | succ d ih =>
    intro p h
    cases p with
    | nil => simp [perfectTree] at h
    | addr isLeaf hash left right =>
      simp only [perfectTree, Bool.and_eq_true, Bool.not_eq_true'] at h
      obtain ⟨⟨hleaf, hl⟩, hr⟩ := h
      have hln := perfectTree_ne_nil d left hl
      have hrn := perfectTree_ne_nil d right hr
      simp [MNodePtr.heightLoop, canFollowRight, hleaf, hln, hrn, (ih left hl).1, (ih right hr).2]

theorem getNodesByLevel_length_bound (p : MNodePtr) :
    ∀ (level : Int) (nodes : List String), p.getNodesByLevel level = Except.ok nodes →
      nodes ≠ [] ∧ nodes.length ≤ 2 ^ (max level 0).toNat := by
  induction p with
  | nil => intro level nodes h; simp [MNodePtr.getNodesByLevel] at h
  | addr isLeaf hash left right ihl ihr =>
    intro level nodes h
    by_cases h0 : level ≤ 0
    · simp only [MNodePtr.getNodesByLevel, h0, if_true, Except.ok.injEq] at h
      subst h
      refine ⟨by simp, ?_⟩
      simp only [List.length_singleton]
      exact Nat.one_le_two_pow
    · have hexp : (max level 0).toNat = (max (level - 1) 0).toNat + 1 := by omega
      simp only [MNodePtr.getNodesByLevel, h0, if_false] at h
      by_cases hr : right = MNodePtr.nil
      · simp only [hr, ne_eq, not_true_eq_false, if_false] at h
        obtain ⟨hne, hlen⟩ := ihl (level - 1) nodes h
        refine ⟨hne, ?_⟩
        rw [hexp, pow_succ]
        omega
      · simp only [ne_eq, hr, not_false_eq_true, if_true] at h
        cases hL : left.getNodesByLevel (level - 1) with
        | error e => simp [hL] at h
        | ok ls =>
          cases hR : right.getNodesByLevel (level - 1) with
          | error e => simp [hL, hR] at h
          | ok rs =>
            simp only [hL, hR, Except.ok.injEq] at h
            subst h
            obtain ⟨hne, hlen⟩ := ihl (level - 1) ls hL
            obtain ⟨_, hlen2⟩ := ihr (level - 1) rs hR
            refine ⟨by simp [hne], ?_⟩
            rw [hexp, pow_succ, List.length_append]
            omega

theorem perfectTree_level_length : ∀ (d : Nat) (p : MNodePtr) (level : Int),
    perfectTree d p = true → 0 ≤ level → level ≤ (d : Int) →
      ∃ nodes, p.getNodesByLevel level = Except.ok nodes ∧ nodes.length = 2 ^ level.toNat := by
  intro d
  induction d with
  | zero =>
    intro p level h h0 hd
    have hl : level = 0 := by omega
    subst hl
    cases p with
    | nil => simp [perfectTree] at h
    | addr isLeaf hash left right => exact ⟨[hash], by simp [MNodePtr.getNodesByLevel]⟩
  | succ d ih =>
    intro p level h h0 hd
    cases p with
    | nil => simp [perfectTree] at h
    | addr isLeaf hash left right =>
      simp only [perfectTree, Bool.and_eq_true, Bool.not_eq_true'] at h
      obtain ⟨⟨_, hl⟩, hr⟩ := h
      have hrn := perfectTree_ne_nil d right hr
      by_cases hz : level ≤ 0
      · have hl0 : level = 0 := by omega
        subst hl0
        exact ⟨[hash], by simp [MNodePtr.getNodesByLevel]⟩
      · obtain ⟨ls, hls, hlen⟩ := ih left (level - 1) hl (by omega) (by omega)
        obtain ⟨rs, hrs, hlen2⟩ := ih right (level - 1) hr (by omega) (by omega)
        refine ⟨ls ++ rs, by simp [MNodePtr.getNodesByLevel, hz, hrn, hls, hrs], ?_⟩
        have hexp : level.toNat = (level - 1).toNat + 1 := by omega
        rw [List.length_append, hlen, hlen2, hexp, pow_succ]
        omega

theorem getNodesByLevel_eq_digestsAtDepth (p : MNodePtr) :
    ∀ (level : Int) (nodes : List String), p.getNodesByLevel level = Except.ok nodes →
      nodes = digestsAtDepth (max level 0).toNat p := by
  induction p with
  | nil => intro level nodes h; simp [MNodePtr.getNodesByLevel] at h
  | addr isLeaf hash left right ihl ihr =>
    intro level nodes h
    by_cases h0 : level ≤ 0
    · have hz : (max level 0).toNat = 0 := by omega
      simp only [MNodePtr.getNodesByLevel, h0, if_true, Except.ok.injEq] at h
      rw [hz, ← h]
      rfl
    · have hexp : (max level 0).toNat = (max (level - 1) 0).toNat + 1 := by omega
      simp only [MNodePtr.getNodesByLevel, h0, if_false] at h
      rw [hexp]
      simp only [digestsAtDepth]
      by_cases hr : right = MNodePtr.nil
      · simp only [hr, ne_eq, not_true_eq_false, if_false] at h
        rw [hr, ← ihl (level - 1) nodes h]
        cases (max (level - 1) 0).toNat <;> simp [digestsAtDepth]
      · simp only [ne_eq, hr, not_false_eq_true, if_true] at h
        cases hL : left.getNodesByLevel (level - 1) with
        | error e => simp [hL] at h
        | ok ls =>
          cases hR : right.getNodesByLevel (level - 1) with
          | error e => simp [hL, hR] at h
          | ok rs =>
            simp only [hL, hR, Except.ok.injEq] at h
            rw [← h, ← ihl (level - 1) ls hL, ← ihr (level - 1) rs hR]

theorem GetPathByIndex_nil_iff (node : MNode) (idx : Int) :
    GetPathByIndex node idx = Except.ok none ↔ idx > (node.GetHeight : Int) := by
  unfold GetPathByIndex
  by_cases h : idx > (node.GetHeight : Int)
  · simp [h]
  · simp only [h, if_false, iff_false]
    cases node.getNodesByLevel idx <;> simp

/-! ## Claims -/

/-- C1: for every node, `GetHash` returns `MHash` of the two children's stored
digests, left first, which is `Hash` of their concatenation, when both
children are present; the left child's stored digest when only the left child
is present; and the node's own stored digest in every other case. -/
theorem GetHash_node_digest_rule (Sum256 : List (Fin 256) → Sum256Out)
    (isLeaf : Bool) (hash : String) :
    (∀ li lh ll lr ri rh rl rr,
      Except.map Prod.snd
        (GetHash Sum256 (MNodePtr.addr isLeaf hash (MNodePtr.addr li lh ll lr)
          (MNodePtr.addr ri rh rl rr)))
        = Except.ok (MHash Sum256 lh rh)
      ∧ MHash Sum256 lh rh = Hash Sum256 (lh ++ rh)) ∧
    (∀ li lh ll lr,
      Except.map Prod.snd
        (GetHash Sum256 (MNodePtr.addr isLeaf hash (MNodePtr.addr li lh ll lr) MNodePtr.nil))
        = Except.ok lh) ∧
    (∀ right,
      Except.map Prod.snd (GetHash Sum256 (MNodePtr.addr isLeaf hash MNodePtr.nil right))
        = Except.ok hash) := by
  refine ⟨?_, ?_, ?_⟩
  · intro li lh ll lr ri rh rl rr
    exact ⟨rfl, rfl⟩
  · intro li lh ll lr
    rfl
  · intro right
    rfl

/-- C2: on the three leaf digests `A`, `B`, `C` the call of `ComputeTree`
returns no root at any step bound: the body calls itself unconditionally
(source line 74), so no node with digest `MHash (MHash A B) C` is produced. -/
theorem ComputeTree_three_leaves_no_root (A B C : String) (fuel : Nat) :
    ComputeTree fuel (ComputeTreeArg.hashes [some A, some B, some C]) = none :=
  ComputeTree_eq_none fuel _

/-- C3: `ComputeTree` does not terminate: every call makes one nested call
of itself, on the node `list`, whatever its argument is, and for every leaf
sequence and every step bound the outermost call has not returned. -/
theorem ComputeTree_never_returns (hs : List Hashable) (fuel : Nat) :
    ComputeTree fuel (ComputeTreeArg.hashes hs) = none ∧
    ComputeTree (fuel + 1) (ComputeTreeArg.hashes hs)
      = ComputeTree fuel (ComputeTreeArg.node ⟨false, "", MNodePtr.nil, MNodePtr.nil⟩) :=
  ⟨ComputeTree_eq_none fuel _, rfl⟩

/-- C4: on the empty leaf sequence `ComputeTree` does not fail with an error:
at every step bound the call has neither stopped with an error signalled to
the caller nor returned a node, because the body calls itself
unconditionally (source line 74) and has no check for an empty input. -/
theorem ComputeTree_empty_no_root (fuel : Nat) :
    (∀ root, ComputeTree fuel (ComputeTreeArg.hashes []) ≠ some (Except.ok root)) ∧
    (∀ e, ComputeTree fuel (ComputeTreeArg.hashes []) ≠ some (Except.error e)) ∧
    ComputeTree (fuel + 1) (ComputeTreeArg.hashes [])
      = ComputeTree fuel (ComputeTreeArg.node ⟨false, "", MNodePtr.nil, MNodePtr.nil⟩) := by
  refine ⟨?_, ?_, rfl⟩
  · rw [ComputeTree_eq_none]
    exact fun _ h => Option.noConfusion h
  · rw [ComputeTree_eq_none]
    exact fun _ h => Option.noConfusion h

/-- C5: the proof-soundness run never yields `true`: for every `VerifyPath`,
every leaf sequence, every index and every step bound the run has not
returned, because `ComputeTree` does not return a tree. -/
theorem soundnessRun_never_returns
    (VerifyPath : String → Option (List String) → String → Bool)
    (fuel : Nat) (L : List String) (i : Nat) :
    soundnessRun VerifyPath fuel L i = none := by
  unfold soundnessRun
  rw [ComputeTree_eq_none]

/-- C6, as stated, fails: on the three-leaf tree index `-1` does not give the
nil path; the call returns the one-element list with the root digest. -/
theorem GetPathByIndex_minus_one_not_nil :
    GetPathByIndex (threeLeafTree "h0" "h1" "h2" "h01" "root") (-1)
      = Except.ok (some ["root"]) ∧
    GetPathByIndex (threeLeafTree "h0" "h1" "h2" "h01" "root") (-1) ≠ Except.ok none :=
  ⟨rfl, fun h => Except.noConfusion h (fun h2 => Option.noConfusion h2)⟩

/-- C6, amended: for every tree and every negative index, `GetPathByIndex`
returns the one-element list that holds the stored digest of the root. -/
theorem GetPathByIndex_negative (node : MNode) (idx : Int) (h : idx < 0) :
    GetPathByIndex node idx = Except.ok (some [node.hash]) := by
  have h1 : ¬ idx > (node.GetHeight : Int) := by omega
  have h2 : idx ≤ 0 := by omega
  simp [GetPathByIndex, h1, MNode.getNodesByLevel, MNode.ptr, MNodePtr.getNodesByLevel, h2]

theorem GetPathByIndex_negative_witness :
    (-1 : Int) < 0 ∧
    GetPathByIndex (fourLeafTree "h0" "h1" "h2" "h3" "h01" "h23" "root") (-1)
      = Except.ok (some ["root"]) :=
  ⟨by decide, GetPathByIndex_negative _ (-1) (by decide)⟩

/-- C7, as stated, fails: the tree with one leaf below a single-child internal
node satisfies the node invariant and has one leaf, and index `1`, equal to
the leaf count, gives the list with the leaf digest instead of the nil path. -/
theorem GetPathByIndex_leafCount_not_nil :
    nodeInvariant (singleChildTree "a").ptr = true ∧
    leafCount (singleChildTree "a").ptr = 1 ∧
    GetPathByIndex (singleChildTree "a") 1 = Except.ok (some ["a"]) :=
  ⟨by decide, by decide, rfl⟩

/-- C7, amended: for every tree whose `GetHeight` is smaller than its number
of leaves, with or without single-child internal nodes, and every index at
least the number of leaves, `GetPathByIndex` returns the nil path.  The
condition on the height is exact: every index from the number of leaves on
gives the nil path if and only if `GetHeight` is smaller than the number of
leaves; and it holds whenever every internal node has both children. -/
theorem GetPathByIndex_nil_of_leafCount_le (node : MNode) (idx : Int)
    (hlt : node.GetHeight < leafCount node.ptr)
    (hidx : (leafCount node.ptr : Int) ≤ idx) :
    GetPathByIndex node idx = Except.ok none ∧
    (∀ other : MNode,
      (∀ j : Int, (leafCount other.ptr : Int) ≤ j → GetPathByIndex other j = Except.ok none)
        ↔ other.GetHeight < leafCount other.ptr) ∧
    (∀ other : MNode, twoChildInvariant other.ptr = true →
      other.GetHeight < leafCount other.ptr) := by
  refine ⟨?_, ?_, ?_⟩
  · exact (GetPathByIndex_nil_iff node idx).mpr (by omega)
  · intro other
    constructor
    · intro h
      have h1 := (GetPathByIndex_nil_iff other (leafCount other.ptr : Int)).mp
        (h _ (le_refl _))
      omega
    · intro h j hj
      exact (GetPathByIndex_nil_iff other j).mpr (by omega)
  · intro other h
    have h1 := heightLoop_lt_leafCount other.ptr h
    unfold MNode.GetHeight
    omega

theorem GetPathByIndex_nil_of_leafCount_le_witness :
    nodeInvariant (wrappedThreeLeafTree "h0" "h1" "h2" "h01" "root").ptr = true ∧
    twoChildInvariant (wrappedThreeLeafTree "h0" "h1" "h2" "h01" "root").ptr = false ∧
    (wrappedThreeLeafTree "h0" "h1" "h2" "h01" "root").GetHeight
      < leafCount (wrappedThreeLeafTree "h0" "h1" "h2" "h01" "root").ptr ∧
    (leafCount (wrappedThreeLeafTree "h0" "h1" "h2" "h01" "root").ptr : Int) ≤ 3 ∧
    GetPathByIndex (wrappedThreeLeafTree "h0" "h1" "h2" "h01" "root") 3 = Except.ok none :=
  ⟨by decide, by decide, by decide, by decide,
    (GetPathByIndex_nil_of_leafCount_le _ 3 (by decide) (by decide)).1⟩

/-- C8, as stated, fails: the perfect tree over four leaves satisfies the
node invariant and has four leaves, and the valid leaf index `3` gives the
nil path. -/
theorem GetPathByIndex_valid_index_nil :
    nodeInvariant (fourLeafTree "h0" "h1" "h2" "h3" "h01" "h23" "root").ptr = true ∧
    leafCount (fourLeafTree "h0" "h1" "h2" "h3" "h01" "h23" "root").ptr = 4 ∧
    GetPathByIndex (fourLeafTree "h0" "h1" "h2" "h3" "h01" "h23" "root") 3 = Except.ok none :=
  ⟨by decide, by decide, rfl⟩

/-- C8, amended: for every tree that satisfies the node invariant and every
index not larger than the depth of the shallowest leaf, `GetPathByIndex`
returns a path, not nil, and dereferences no missing child. -/
theorem GetPathByIndex_ok_of_le_minLeafDepth (node : MNode) (idx : Int)
    (hinv : nodeInvariant node.ptr = true)
    (hidx : idx ≤ (minLeafDepth node.ptr : Int)) :
    ∃ nodes, GetPathByIndex node idx = Except.ok (some nodes) := by
  have hle := minLeafDepth_le_heightLoop node.ptr hinv
  have h1 : ¬ idx > (node.GetHeight : Int) := by
    unfold MNode.GetHeight
    omega
  obtain ⟨nodes, hnodes⟩ := getNodesByLevel_ok_of_le_minLeafDepth node.ptr hinv idx hidx
  exact ⟨nodes, by simp [GetPathByIndex, h1, MNode.getNodesByLevel, hnodes]⟩

theorem GetPathByIndex_ok_of_le_minLeafDepth_witness :
    nodeInvariant (threeLeafTree "h0" "h1" "h2" "h01" "root").ptr = true ∧
    (1 : Int) ≤ (minLeafDepth (threeLeafTree "h0" "h1" "h2" "h01" "root").ptr : Int) ∧
    ∃ nodes, GetPathByIndex (threeLeafTree "h0" "h1" "h2" "h01" "root") 1
      = Except.ok (some nodes) :=
  ⟨by decide, by decide, GetPathByIndex_ok_of_le_minLeafDepth _ 1 (by decide) (by decide)⟩

/-- C9: on the tree over three leaf digests, with any stored digests in the
internal node and in the root, `GetPathByIndex` at index `2` stops with a nil
dereference: `getNodesByLevel` descends below the promoted leaf.  Index `1`
gives the two digests of depth one. -/
theorem GetPathByIndex_three_leaves_index_two (h0 h1 h2 h01 hr : String) :
    GetPathByIndex (threeLeafTree h0 h1 h2 h01 hr) 2
      = Except.error RuntimeError.nilDereference ∧
    GetPathByIndex (threeLeafTree h0 h1 h2 h01 hr) 1 = Except.ok (some [h01, h2]) :=
  ⟨rfl, rfl⟩

/-- C10, as stated, fails: it is not the case that for every hash primitive
`MHash a b` is the hash of a non-empty prefix followed by `a` and `b`. -/
theorem MHash_not_domain_separated :
    ¬ ∀ Sum256 : List (Fin 256) → Sum256Out, ∃ pfx : String, pfx ≠ "" ∧
      ∀ a b : String, MHash Sum256 a b = Hash Sum256 (pfx ++ a ++ b) := by
  intro h
  obtain ⟨pfx, hne, hall⟩ := h emptinessSum256
  have key := hall "" ""
  have e1 : bytesOf ("" ++ "") = [] := by decide
  have e2 : bytesOf (pfx ++ "" ++ "") ≠ [] := bytesOf_ne_nil _ (by simpa using hne)
  simp only [MHash, Hash, emptinessSum256, e1, e2, if_true, if_false] at key
  revert key
  decide

/-- C10, amended: for every hash primitive and every pair of strings,
`MHash a b` is `Hash` applied to the plain concatenation `a ++ b`: the bytes
given to the primitive are the bytes of `a ++ b`, with no prefix. -/
theorem MHash_eq_Hash_append (Sum256 : List (Fin 256) → Sum256Out) (a b : String) :
    MHash Sum256 a b = Hash Sum256 (a ++ b) ∧
    MHash Sum256 a b = sprintfHex (Sum256 (bytesOf (a ++ b))).bytes :=
  ⟨rfl, rfl⟩

/-- C11: the tree that results from the level-by-level pairing of `n >= 1`
leaves has a root, and `GetHeight` of the root is the ceiling of the binary
logarithm of `n` when `n > 1` and `0` when `n = 1`: it is the least `k` with
`n <= 2 ^ k`. -/
theorem pairingTree_GetHeight (Sum256 : List (Fin 256) → Sum256Out) (leaves : List String)
    (hn : 1 ≤ leaves.length) :
    ∃ root, (pairingTree Sum256 leaves).load = Except.ok root ∧
      root.GetHeight = (if 1 < leaves.length then Nat.clog 2 leaves.length else 0) ∧
      leaves.length ≤ 2 ^ root.GetHeight ∧
      ∀ k, leaves.length ≤ 2 ^ k → root.GetHeight ≤ k := by
  match leaves, hn with
  | a :: rest, _ =>
    have h := pairRounds_height Sum256 (a :: rest).length (leafNode a) (rest.map leafNode)
      (by simp [leafNode]) (by simp)
    have hleaf : (leafNode a).heightLoop = 0 := by simp [leafNode, MNodePtr.heightLoop]
    have hlen : (leafNode a :: rest.map leafNode).length = (a :: rest).length := by simp
    rw [hleaf, hlen, Nat.zero_add] at h
    obtain ⟨root, hload, hptr⟩ := load_of_ne_nil _ h.1
    have hheight : root.GetHeight = Nat.clog 2 (a :: rest).length := by
      unfold MNode.GetHeight
      rw [hptr]
      exact h.2
    refine ⟨root, hload, ?_, ?_, ?_⟩
    · rw [hheight]
      split
      · rfl
      · have h1 : (a :: rest).length = 1 := by
          have : 1 ≤ (a :: rest).length := by simp
          omega
        rw [h1, Nat.clog_one_right]
    · rw [hheight]
      exact Nat.le_pow_clog (by decide) _
    · intro k hk
      rw [hheight]
      exact (Nat.le_pow_iff_clog_le (by decide)).mp hk

theorem pairingTree_GetHeight_witness :
    1 ≤ ["a", "b", "c"].length ∧
    ∃ root, (pairingTree emptinessSum256 ["a", "b", "c"]).load = Except.ok root ∧
      root.GetHeight = (if 1 < ["a", "b", "c"].length then Nat.clog 2 ["a", "b", "c"].length
        else 0) ∧
      ["a", "b", "c"].length ≤ 2 ^ root.GetHeight ∧
      ∀ k, ["a", "b", "c"].length ≤ 2 ^ k → root.GetHeight ≤ k :=
  ⟨by decide, pairingTree_GetHeight emptinessSum256 ["a", "b", "c"] (by decide)⟩

/-- C12, as stated, fails: the tree with a leaf on the left of the root and an
internal node over two leaves on the right satisfies the node invariant and
has three leaves, and the listing at level `GetHeight` has two entries, the
left leaf and the internal node. -/
theorem getNodesByLevel_height_not_leaves :
    nodeInvariant (rightDeepTree "a" "b" "c" "bc" "r").ptr = true ∧
    leafCount (rightDeepTree "a" "b" "c" "bc" "r").ptr = 3 ∧
    (rightDeepTree "a" "b" "c" "bc" "r").getNodesByLevel
        ((rightDeepTree "a" "b" "c" "bc" "r").GetHeight : Int)
      = Except.ok ["a", "bc"] :=
  ⟨by decide, by decide, rfl⟩

/-- C12, amended: for every tree that satisfies the node invariant and has
all its leaves at one depth `d`, `GetHeight` is `d`, the listing at level
`GetHeight` succeeds and is the list of the leaf digests from left to right,
whose length is the number of leaves; and for every node the listing at level
`0` is the one-element list with the stored digest of the node. -/
theorem getNodesByLevel_height_leaves (node : MNode) (d : Nat)
    (hinv : nodeInvariant node.ptr = true) (hd : leavesAtDepth d node.ptr = true) :
    node.GetHeight = d ∧
    node.getNodesByLevel (node.GetHeight : Int) = Except.ok (leafDigests node.ptr) ∧
    (leafDigests node.ptr).length = leafCount node.ptr ∧
    ∀ other : MNode, other.getNodesByLevel 0 = Except.ok [other.hash] := by
  obtain ⟨h1, h2, h3⟩ := leavesAtDepth_level_listing node.ptr d hinv hd
  refine ⟨h1, ?_, h3, ?_⟩
  · unfold MNode.GetHeight MNode.getNodesByLevel
    rw [h1]
    exact h2
  · intro other
    simp [MNode.getNodesByLevel, MNode.ptr, MNodePtr.getNodesByLevel]

theorem getNodesByLevel_height_leaves_witness :
    nodeInvariant (fourLeafTree "h0" "h1" "h2" "h3" "h01" "h23" "root").ptr = true ∧
    leavesAtDepth 2 (fourLeafTree "h0" "h1" "h2" "h3" "h01" "h23" "root").ptr = true ∧
    (fourLeafTree "h0" "h1" "h2" "h3" "h01" "h23" "root").getNodesByLevel
        ((fourLeafTree "h0" "h1" "h2" "h3" "h01" "h23" "root").GetHeight : Int)
      = Except.ok (leafDigests (fourLeafTree "h0" "h1" "h2" "h3" "h01" "h23" "root").ptr) :=
  ⟨by decide, by decide,
    (getNodesByLevel_height_leaves _ 2 (by decide) (by decide)).2.1⟩

/-- C13, as stated, fails: `GetHash` on a node with stored digest `x` and a
left child only, with digest `a`, leaves the node with stored digest `a`. -/
theorem GetHash_changes_node :
    GetHash emptinessSum256 (MNodePtr.addr false "x" (leafNode "a") MNodePtr.nil)
      = Except.ok (⟨false, "a", leafNode "a", MNodePtr.nil⟩, "a") ∧
    (⟨false, "a", leafNode "a", MNodePtr.nil⟩ : MNode)
      ≠ ⟨false, "x", leafNode "a", MNodePtr.nil⟩ :=
  ⟨rfl, by decide⟩

/-- C13, amended: for every node, `GetHash` leaves the `isLeaf` flag and the
two child links unchanged and overwrites the `hash` field with the digest it
returns: `Hash` of the concatenation of the two children's stored digests,
left first, when both children are present, and the left child's stored
digest when only the left child is present; a node without a left child is
left unchanged. -/
theorem GetHash_frame (Sum256 : List (Fin 256) → Sum256Out)
    (isLeaf : Bool) (hash : String) :
    (∀ li lh ll lr ri rh rl rr,
      GetHash Sum256 (MNodePtr.addr isLeaf hash (MNodePtr.addr li lh ll lr)
          (MNodePtr.addr ri rh rl rr))
        = Except.ok
            (⟨isLeaf, Hash Sum256 (lh ++ rh), MNodePtr.addr li lh ll lr,
                MNodePtr.addr ri rh rl rr⟩,
              Hash Sum256 (lh ++ rh))) ∧
    (∀ li lh ll lr,
      GetHash Sum256 (MNodePtr.addr isLeaf hash (MNodePtr.addr li lh ll lr) MNodePtr.nil)
        = Except.ok (⟨isLeaf, lh, MNodePtr.addr li lh ll lr, MNodePtr.nil⟩, lh)) ∧
    (∀ right,
      GetHash Sum256 (MNodePtr.addr isLeaf hash MNodePtr.nil right)
        = Except.ok (⟨isLeaf, hash, MNodePtr.nil, right⟩, hash)) :=
  ⟨fun _ _ _ _ _ _ _ _ => rfl, fun _ _ _ _ => rfl, fun _ => rfl⟩

/-- C14: the single-leaf tree with digest `A` has `GetRoot` equal to `A` and
`GetHeight` equal to `0`, and `GetRoot` of any node is the stored digest of
that node. -/
theorem GetRoot_single_leaf (A : String) (node : MNode) :
    (⟨true, A, MNodePtr.nil, MNodePtr.nil⟩ : MNode).GetRoot = A ∧
    (⟨true, A, MNodePtr.nil, MNodePtr.nil⟩ : MNode).GetHeight = 0 ∧
    node.GetRoot = node.hash :=
  ⟨rfl, rfl, rfl⟩

/-- C15: for every hash primitive with a 32-byte digest and every input,
`Hash` returns a string of exactly 64 characters, each a lowercase
hexadecimal digit, and so does `MHash` for every pair of arguments. -/
theorem Hash_lowercase_hex (Sum256 : List (Fin 256) → Sum256Out) (text a b : String) :
    (Hash Sum256 text).length = 64 ∧
    (∀ c ∈ (Hash Sum256 text).data, isLowerHex c = true) ∧
    (MHash Sum256 a b).length = 64 ∧
    (∀ c ∈ (MHash Sum256 a b).data, isLowerHex c = true) := by
  have hlen : ∀ t, (Hash Sum256 t).length = 64 := by
    intro t
    simp only [Hash]
    rw [sprintfHex_length, (Sum256 (bytesOf t)).size_eq]
  exact ⟨hlen text, sprintfHex_lowerHex _, hlen _, sprintfHex_lowerHex _⟩

/-- C16: `GetPathByIndex` returns the nil path exactly when the index exceeds
`GetHeight`, and a list it returns is the list of the digests at that depth;
but on the tree over three leaves index `2` does not exceed the height, the
digests at depth two are `h0` and `h1`, and the call stops with a nil
dereference instead of returning them. -/
theorem GetPathByIndex_level_listing (h0 h1 h2 h01 hr : String) (node : MNode) (idx : Int) :
    (GetPathByIndex node idx = Except.ok none ↔ idx > (node.GetHeight : Int)) ∧
    (∀ nodes, GetPathByIndex node idx = Except.ok (some nodes) →
      nodes = digestsAtDepth (max idx 0).toNat node.ptr) ∧
    ¬ ((2 : Int) > ((threeLeafTree h0 h1 h2 h01 hr).GetHeight : Int)) ∧
    digestsAtDepth 2 (threeLeafTree h0 h1 h2 h01 hr).ptr = [h0, h1] ∧
    GetPathByIndex (threeLeafTree h0 h1 h2 h01 hr) 2
      = Except.error RuntimeError.nilDereference := by
  have hheight : (threeLeafTree h0 h1 h2 h01 hr).GetHeight = 2 := rfl
  refine ⟨GetPathByIndex_nil_iff node idx, ?_, by rw [hheight]; decide, rfl, rfl⟩
  intro nodes h
  unfold GetPathByIndex at h
  by_cases hgt : idx > (node.GetHeight : Int)
  · simp [hgt] at h
  · simp only [hgt, if_false] at h
    cases hL : node.getNodesByLevel idx with
    | error e => simp [hL] at h
    | ok ls =>
      simp only [hL, Except.ok.injEq, Option.some.injEq] at h
      subst h
      exact getNodesByLevel_eq_digestsAtDepth node.ptr idx ls hL

/-- C17: `GetPath` returns true exactly when right-child links can be
followed `GetHeight` times from the node; it returns true for every single
leaf and for the root of every perfect binary tree, and false for the tree
over three leaves. -/
theorem GetPath_right_spine (node : MNode) :
    (GetPath node = true ↔ canFollowRight node.GetHeight node.ptr = true) ∧
    (∀ h : String, GetPath ⟨true, h, MNodePtr.nil, MNodePtr.nil⟩ = true) ∧
    (∀ (d : Nat) (root : MNode), perfectTree d root.ptr = true → GetPath root = true) ∧
    (∀ h0 h1 h2 h01 hr : String, GetPath (threeLeafTree h0 h1 h2 h01 hr) = false) := by
  refine ⟨GetPath_iff node, fun h => rfl, ?_, fun h0 h1 h2 h01 hr => rfl⟩
  intro d root hp
  obtain ⟨hh, hr⟩ := perfectTree_spines d root.ptr hp
  rw [GetPath_iff]
  unfold MNode.GetHeight
  rw [hh]
  exact hr

theorem GetPath_right_spine_witness :
    perfectTree 2 (fourLeafTree "h0" "h1" "h2" "h3" "h01" "h23" "root").ptr = true ∧
    GetPath (fourLeafTree "h0" "h1" "h2" "h3" "h01" "h23" "root") = true :=
  ⟨by decide,
    (GetPath_right_spine (fourLeafTree "h0" "h1" "h2" "h3" "h01" "h23" "root")).2.2.1 2 _
      (by decide)⟩

/-- C18: `MHash` does not commit to the boundary between its arguments: the
different pairs `("ab", "c")` and `("a", "bc")` have the same `MHash`, as do
any two pairs with the same concatenation; and when the first arguments have
equal length, equal concatenations force equal pairs. -/
theorem MHash_boundary (Sum256 : List (Fin 256) → Sum256Out) :
    MHash Sum256 "ab" "c" = MHash Sum256 "a" "bc" ∧
    (("ab", "c") : String × String) ≠ ("a", "bc") ∧
    (∀ a b c d : String, a ++ b = c ++ d → MHash Sum256 a b = MHash Sum256 c d) ∧
    (∀ a b c d : String, a.length = c.length → a ++ b = c ++ d →
      MHash Sum256 a b = MHash Sum256 c d ∧ a = c ∧ b = d) := by
  have hcat : ∀ a b c d : String, a ++ b = c ++ d → MHash Sum256 a b = MHash Sum256 c d := by
    intro a b c d h
    simp only [MHash, h]
  refine ⟨hcat _ _ _ _ (by decide), by decide, hcat, ?_⟩
  intro a b c d hlen h
  have hdata : a.data ++ b.data = c.data ++ d.data := by
    rw [← String.data_append, ← String.data_append, h]
  obtain ⟨h1, h2⟩ := List.append_inj hdata hlen
  exact ⟨hcat a b c d h, String.ext h1, String.ext h2⟩

theorem MHash_boundary_witness :
    "ab".length = "ab".length ∧ "ab" ++ "cd" = "ab" ++ "cd" ∧
    MHash emptinessSum256 "ab" "cd" = MHash emptinessSum256 "ab" "cd" ∧
    "ab" = "ab" ∧ "cd" = "cd" :=
  ⟨rfl, rfl, (MHash_boundary emptinessSum256).2.2.2 "ab" "cd" "ab" "cd" rfl rfl⟩

/-- C19: a list that `getNodesByLevel` returns is non-empty and has at most
`2 ^ max(level, 0)` entries; on a perfect binary tree of depth `d` and a level
between `0` and `d` the call succeeds and returns exactly `2 ^ level`
entries. -/
theorem getNodesByLevel_length (p : MNodePtr) (level : Int) :
    (∀ nodes, p.getNodesByLevel level = Except.ok nodes →
      nodes ≠ [] ∧ nodes.length ≤ 2 ^ (max level 0).toNat) ∧
    (∀ d : Nat, perfectTree d p = true → 0 ≤ level → level ≤ (d : Int) →
      ∃ nodes, p.getNodesByLevel level = Except.ok nodes ∧
        nodes.length = 2 ^ level.toNat) :=
  ⟨getNodesByLevel_length_bound p level, fun d => perfectTree_level_length d p level⟩

theorem getNodesByLevel_length_witness :
    (fourLeafTree "h0" "h1" "h2" "h3" "h01" "h23" "root").ptr.getNodesByLevel 1
      = Except.ok ["h01", "h23"] ∧
    perfectTree 2 (fourLeafTree "h0" "h1" "h2" "h3" "h01" "h23" "root").ptr = true ∧
    (["h01", "h23"] ≠ [] ∧ ["h01", "h23"].length ≤ 2 ^ (max (1 : Int) 0).toNat) ∧
    ∃ nodes, (fourLeafTree "h0" "h1" "h2" "h3" "h01" "h23" "root").ptr.getNodesByLevel 1
        = Except.ok nodes ∧ nodes.length = 2 ^ (1 : Int).toNat :=
  ⟨rfl, by decide,
    (getNodesByLevel_length
      (fourLeafTree "h0" "h1" "h2" "h3" "h01" "h23" "root").ptr 1).1 ["h01", "h23"] rfl,
    (getNodesByLevel_length
      (fourLeafTree "h0" "h1" "h2" "h3" "h01" "h23" "root").ptr 1).2 2
      (by decide) (by decide) (by decide)⟩

end MerkleTree
